import Mathlib

/-!
Verification of the pinecone-memory plugin core against its specification.

The definitions below are a shallow embedding of the JavaScript helpers in
`index.js` (the snapshot matching the current test suite): text normalisation,
tokenisation, Jaccard similarity, contradiction detection, memory-tag
stripping, search-hit content extraction, the heuristic per-fact
reconciliation step, the LLM-reconciliation id-placeholder mapping, the
decision applier, and the `memory_store` tool body.  Strings are modelled as
Lean `String`/`List Char`, JS numbers as `ℚ`, possibly-absent JS values as
`Option`, and database effects as explicit operation lists.
-/

namespace PineconeMemory

/-- JS whitespace (the characters relevant to `trim`, `\s` and `split(/\s+/)`
for the ASCII inputs this plugin handles). -/
def isWsChar (c : Char) : Bool :=
  c = ' ' || c = '\t' || c = '\n' || c = '\r' || c = Char.ofNat 11 || c = Char.ofNat 12

/-- Leading-whitespace removal, first half of JS `String.prototype.trim`. -/
def trimLeftChars (l : List Char) : List Char := l.dropWhile isWsChar

/-- Trailing-whitespace removal, second half of JS `trim`. -/
def trimRightChars : List Char → List Char
  | [] => []
  | c :: cs =>
    match trimRightChars cs with
    | [] => if isWsChar c then [] else [c]
    | r => c :: r

/-- JS `trim` on character lists. -/
def trimChars (l : List Char) : List Char := trimRightChars (trimLeftChars l)

/-- JS `String.prototype.trim`. -/
def jsTrim (s : String) : String := ⟨trimChars s.data⟩

/-- The leading-marker class of `normalizeFact`: `/^[\-•\*\d\.\)\s]+/`. -/
def isMarkerChar (c : Char) : Bool :=
  c = '-' || c = Char.ofNat 0x2022 || c = '*' || c.isDigit || c = '.' || c = ')' || isWsChar c

/-- JS `replace(/\s+/g, " ")`: every maximal whitespace run becomes one space. -/
def collapseWs : List Char → List Char
  | [] => []
  | [c] => if isWsChar c then [' '] else [c]
  | c1 :: c2 :: rest =>
    if isWsChar c1 && isWsChar c2 then collapseWs (c2 :: rest)
    else (if isWsChar c1 then ' ' else c1) :: collapseWs (c2 :: rest)

/-- `normalizeFact` from `index.js`: strip leading list/bullet/numeric markers,
collapse whitespace runs, trim. -/
def normalizeFact (s : String) : String :=
  ⟨trimChars (collapseWs (s.data.dropWhile isMarkerChar))⟩

/-- One character of `tokenSet`'s pipeline: `toLowerCase()` then
`replace(/[^a-z0-9\s]/g, " ")`. -/
def sanitizeChar (c : Char) : Char :=
  let c' := c.toLower
  if ('a' ≤ c' && c' ≤ 'z') || ('0' ≤ c' && c' ≤ '9') || isWsChar c' then c' else ' '

/-- `split(/\s+/)` restricted to the non-empty fragments (the empty fragments
JS may produce at the ends are removed by the length-`> 2` filter anyway). -/
def wordGroupsF : ℕ → List Char → List (List Char)
  | 0, _ => []
  | _ + 1, [] => []
  | fuel + 1, c :: cs =>
    if isWsChar c then wordGroupsF fuel cs
    else (c :: cs.takeWhile (fun x => !isWsChar x)) ::
      wordGroupsF fuel (cs.dropWhile (fun x => !isWsChar x))

def wordGroups (l : List Char) : List (List Char) := wordGroupsF l.length l

/-- The token list behind `tokenSet`: lowercase, strip non-alphanumerics to
spaces, split on whitespace, keep tokens of length `> 2`. -/
def tokensOf (s : String) : List String :=
  ((wordGroups (s.data.map sanitizeChar)).map (fun l => (⟨l⟩ : String))).filter
    (fun t => 2 < t.length)

/-- `tokenSet` from `index.js` (a JS `Set`: duplicates collapse). -/
def tokenSet (s : String) : Finset String := (tokensOf s).toFinset

/-- `similarity` from `index.js`: intersection counted by iterating the first
set, union via `new Set([...aSet, ...bSet])`.  The quotient
`intersection / union` is written `mkRat` (the same rational) so that the
value computes by kernel reduction. -/
def similarity (a b : String) : ℚ :=
  let aSet := tokenSet a
  let bSet := tokenSet b
  if aSet.card = 0 || bSet.card = 0 then 0
  else
    let inter := (aSet.filter (fun t => t ∈ bSet)).card
    let union := (aSet ∪ bSet).card
    if union = 0 then 0 else mkRat inter union

/-- JS `\w` word characters (ASCII letters, digits, underscore). -/
def isWordChar (c : Char) : Bool :=
  ('a' ≤ c && c ≤ 'z') || ('A' ≤ c && c ≤ 'Z') || ('0' ≤ c && c ≤ '9') || c = '_'

/-- A `\b` word boundary next to a word-initial/word-final character: the
neighbouring character must be absent or a non-word character. -/
def boundaryOk : Option Char → Bool
  | none => true
  | some c => !isWordChar c

/-- Does the literal `w` match at the head of `l` with a `\b` boundary after it?
(All alternation words in the source regexes begin and end with `\w` chars.) -/
def matchHere (w l : List Char) : Bool :=
  w.isPrefixOf l && boundaryOk (l.drop w.length).head?

/-- Scan `l` for a `\b w \b` occurrence; `prev` is the character before the
current position. -/
def hasWordFrom (w : List Char) : Option Char → List Char → Bool
  | _, [] => false
  | prev, c :: cs => (boundaryOk prev && matchHere w (c :: cs)) || hasWordFrom w (some c) cs

/-- `/\b(w1|w2|...)\b/i.test(s)`: the subject is lowercased to model the `i`
flag (the alternation words are all lowercase). -/
def testWords (ws : List (List Char)) (s : String) : Bool :=
  ws.any (fun w => hasWordFrom w none (s.data.map Char.toLower))

/-- ASCII apostrophe, written by code point to keep the embedding plain. -/
def apoChar : Char := Char.ofNat 39

/-- The negation-cue alternation of `isContradiction`. -/
def negWords : List (List Char) :=
  ["not".data, "never".data, "no longer".data, "dislike".data, "hate".data, "avoid".data,
    "don".data ++ [apoChar, 't'], "doesn".data ++ [apoChar, 't']]

/-- The positive-cue alternation of `isContradiction`. -/
def posWords : List (List Char) :=
  ["like".data, "love".data, "prefer".data, "always".data, "want".data, "use".data,
    "using".data]

/-- `isContradiction` from `index.js`. -/
def isContradiction (newFact oldFact : String) : Bool :=
  if similarity newFact oldFact < mkRat 35 100 then false
  else
    (testWords negWords newFact && testWords posWords oldFact) ||
      (testWords posWords newFact && testWords negWords oldFact)

/-- Index of the first occurrence of `pat` in `hay`, if any. -/
def findSub (hay pat : List Char) : Option ℕ :=
  if pat.isPrefixOf hay then some 0
  else
    match hay with
    | [] => none
    | _ :: t => (findSub t pat).map (· + 1)

def openTag : List Char := "<relevant-memories>".data

def closeTag : List Char := "</relevant-memories>".data

/-- The global non-greedy replace of
`/<relevant-memories>[\s\S]*?<\/relevant-memories>/g` with `""`: repeatedly
remove the span from the first open tag to the first close tag after it,
continuing after the removed span.  An open tag with no close tag after it
matches nothing (and then no later open tag can match either).  Fuel is the
input length, which strictly bounds the recursion. -/
def stripCoreF : ℕ → List Char → List Char
  | 0, s => s
  | fuel + 1, s =>
    match findSub s openTag with
    | none => s
    | some i =>
      let rest := s.drop (i + openTag.length)
      match findSub rest closeTag with
      | none => s
      | some j => s.take i ++ stripCoreF fuel (rest.drop (j + closeTag.length))

/-- `stripMemoryTags` from `index.js`: remove all delimited spans, then trim. -/
def stripMemoryTags (s : String) : String := ⟨trimChars (stripCoreF s.data.length s.data)⟩

/-- A search hit as the plugin reads it: `_id`, `_score` (absent when the
backend omits it; JS comparisons with `undefined` are false), and the five
optional content locations probed by `extractHitContent`.  `Option.none`
models a nullish (absent/null/undefined) field, `some s` a string value. -/
structure Hit where
  id : String
  score : Option ℚ
  content : Option String
  fieldsContent : Option String
  metadataContent : Option String
  recordContent : Option String
  valuesContent : Option String
deriving DecidableEq

/-- `extractHitContent` from `index.js`: the `??` chain takes the first
non-nullish value (an empty string is not nullish), then trims. -/
def extractHitContent (h : Hit) : String :=
  jsTrim (((((h.content.or h.fieldsContent).or h.metadataContent).or
    h.recordContent).or h.valuesContent).getD "")

/-- `hit._score >= t` under JS semantics: false when `_score` is absent. -/
def scoreGe (h : Hit) (t : ℚ) : Bool :=
  match h.score with
  | some s => t ≤ s
  | none => false

/-- Thresholds read from the plugin configuration (defaults 0.95 / 0.72 /
0.45). -/
structure CaptureConfig where
  deduplicationThreshold : ℚ
  updateThreshold : ℚ
  deleteThreshold : ℚ
deriving DecidableEq

/-- A mutation issued to the vector store. -/
inductive DbOp
  | store (id text : String)
  | update (id text : String)
  | delete (id : String)
deriving DecidableEq

/-- The per-fact reconciliation outcome of `heuristicCapture`. -/
inductive HDecision
  | dnone
  | ddelete (id : String)
  | dupdate (id : String)
  | dadd (id : String)
deriving DecidableEq

/-- The `exactDup` predicate of `heuristicCapture`. -/
def isExactDup (cfg : CaptureConfig) (fact : String) (h : Hit) : Bool :=
  scoreGe h cfg.deduplicationThreshold ||
    decide (mkRat 95 100 ≤ similarity fact (extractHitContent h))

/-- The `updateTarget` predicate of `heuristicCapture`. -/
def isUpdateTarget (cfg : CaptureConfig) (fact : String) (h : Hit) : Bool :=
  scoreGe h cfg.updateThreshold ||
    decide (cfg.updateThreshold ≤ similarity fact (extractHitContent h))

/-- The tail of the per-fact loop body: update check, then unconditional add
with a freshly generated id. -/
def updateOrAdd (cfg : CaptureConfig) (newId fact : String) (nearby : List Hit) :
    HDecision × List DbOp :=
  match nearby.find? (isUpdateTarget cfg fact) with
  | some u => (.dupdate u.id, [.update u.id fact])
  | none => (.dadd newId, [.store newId fact])

/-- One iteration of the `for (const fact of facts)` loop of
`heuristicCapture`: exact-duplicate check, then contradiction check (the
first contradicting hit is used only when its `_score` passes the delete
threshold), then update check, else add.  `newId` stands for the
`randomUUID()` drawn in the add branch; the returned list holds the store
mutations the iteration performs. -/
def heuristicStep (cfg : CaptureConfig) (newId fact : String) (nearby : List Hit) :
    HDecision × List DbOp :=
  match nearby.find? (isExactDup cfg fact) with
  | some _ => (.dnone, [])
  | none =>
    match nearby.find? (fun h => isContradiction fact (extractHitContent h)) with
    | some c =>
      if scoreGe c cfg.deleteThreshold then (.ddelete c.id, [.delete c.id])
      else updateOrAdd cfg newId fact nearby
    | none => updateOrAdd cfg newId fact nearby

/-- A chat message's `content`: a plain string, an array of typed blocks
(`{type, text}` pairs), or any other shape (read as `""`). -/
inductive MsgContent
  | str (s : String)
  | blocks (bs : List (String × String))
  | other

/-- A conversation message. -/
structure Msg where
  role : String
  content : MsgContent

/-- The per-message text extraction shared by the capture paths: a string is
taken as is; an array keeps the `text` of blocks whose `type` is `"text"`,
joined by newlines; anything else is empty. -/
def msgText (m : Msg) : String :=
  match m.content with
  | .str s => s
  | .blocks bs => String.intercalate "\n" ((bs.filter (fun b => b.1 = "text")).map Prod.snd)
  | .other => ""

/-- The conversation text `llmExtractFacts` sends as the user prompt: keep
messages whose role is `"user"`, strip injected memory blocks, drop lines
blank after trimming, join with newlines. -/
def llmConversationText (msgs : List Msg) : String :=
  String.intercalate "\n"
    (((msgs.filter (fun m => m.role = "user")).map
      (fun m => stripMemoryTags (msgText m))).filter
        (fun line => 0 < (jsTrim line).length))

/-- The placeholder-id state of `llmReconcileMemories`: the `idMapping`
object as an ordered list of (placeholder, real id) entries (JS iterates the
integer-like keys in insertion order) and the `nextId` counter. -/
structure RecState where
  mapping : List (String × String)
  next : ℕ
deriving DecidableEq

/-- `Object.entries(idMapping).find(([, v]) => v === realId)?.[0]`. -/
def lookupByReal (m : List (String × String)) (r : String) : Option String :=
  (m.find? (fun p => p.2 = r)).map Prod.fst

/-- `idMapping[k]`. -/
def lookupByKey (m : List (String × String)) (k : String) : Option String :=
  (m.find? (fun p => p.1 = k)).map Prod.snd

/-- Assign a placeholder to a real id: reuse the existing placeholder when the
real id was already seen in this batch, else mint `String(nextId++)`. -/
def assignPlaceholder (st : RecState) (r : String) : String × RecState :=
  match lookupByReal st.mapping r with
  | some k => (k, st)
  | none => (toString st.next, ⟨st.mapping ++ [(toString st.next, r)], st.next + 1⟩)

/-- The `nearby.map(...)` body of `llmReconcileMemories` for one fact: emit
(placeholder, real id) for each nearby hit, threading the mapping state. -/
def emitFact : RecState → List String → List (String × String) × RecState
  | st, [] => ([], st)
  | st, r :: rs =>
    let p := assignPlaceholder st r
    let q := emitFact p.2 rs
    ((p.1, r) :: q.1, q.2)

/-- The whole `for (const fact of facts)` loop: one shared mapping across all
facts of the batch. -/
def emitBatch : RecState → List (List String) → List (List (String × String)) × RecState
  | st, [] => ([], st)
  | st, hits :: more =>
    let p := emitFact st hits
    let q := emitBatch p.2 more
    (p.1 :: q.1, q.2)

/-- Placeholder assignment for a reconciliation batch, starting from the
empty mapping; `batches` holds the real ids of each fact's nearby hits. -/
def llmAssignPlaceholders (batches : List (List String)) :
    List (List (String × String)) × RecState :=
  emitBatch ⟨[], 0⟩ batches

/-- The response-side remapping
`d.id === "new" ? "new" : (idMapping[String(d.id)] ?? d.id)`. -/
def remapDecisionId (m : List (String × String)) (id : String) : String :=
  if id = "new" then "new" else (lookupByKey m id).getD id

/-- A decision row as parsed from the reconciliation response; any field may
be absent. -/
structure DecisionRec where
  event : Option String
  id : Option String
  text : Option String
deriving DecidableEq

/-- JS `toUpperCase` for the ASCII event names. -/
def upperAscii (s : String) : String := ⟨s.data.map Char.toUpper⟩

/-- `!decision.id || decision.id === "new"`: absent, empty (falsy) or the
placeholder literal. -/
def idFalsyOrNew (id : Option String) : Bool :=
  match id with
  | none => true
  | some s => s = "" || s = "new"

/-- `decision.text?.trim()` collapsed to `none` when falsy (`!text`). -/
def textOrNone (t : Option String) : Option String :=
  match t with
  | none => none
  | some s => if jsTrim s = "" then none else some (jsTrim s)

/-- The `{added, updated, deleted, none}` counters of
`applyMemoryDecisions`. -/
structure ApplyStats where
  added : ℕ
  updated : ℕ
  deleted : ℕ
  noneCount : ℕ
deriving DecidableEq

/-- The evolving state of `applyMemoryDecisions`: counters, the store
mutations that completed (in order), a counter of store calls issued (the
failure oracle is indexed by it) and a counter of `randomUUID()` draws. -/
structure ApplyState where
  stats : ApplyStats
  ops : List DbOp
  calls : ℕ
  uuids : ℕ
deriving DecidableEq

/-- One iteration of the `for (const decision of decisions)` loop.  `fail n`
says whether the `n`-th store call throws; a throw is caught by the
surrounding `try` so the iteration ends without its counter increment, and
calls already made stay made (in `DELETE`, a failing replacement store keeps
the completed delete). -/
def applyOne (fail : ℕ → Bool) (uuid : ℕ → String) (st : ApplyState) (d : DecisionRec) :
    ApplyState :=
  let event := upperAscii (d.event.getD "")
  if event = "ADD" then
    match textOrNone d.text with
    | none => st
    | some t =>
      let nid := uuid st.uuids
      if fail st.calls then { st with calls := st.calls + 1, uuids := st.uuids + 1 }
      else
        { st with
          stats := { st.stats with added := st.stats.added + 1 }
          ops := st.ops ++ [.store nid t]
          calls := st.calls + 1
          uuids := st.uuids + 1 }
  else if event = "UPDATE" then
    match textOrNone d.text with
    | none => st
    | some t =>
      if idFalsyOrNew d.id then st
      else
        let tid := d.id.getD ""
        if fail st.calls then { st with calls := st.calls + 1 }
        else
          { st with
            stats := { st.stats with updated := st.stats.updated + 1 }
            ops := st.ops ++ [.update tid t]
            calls := st.calls + 1 }
  else if event = "DELETE" then
    if idFalsyOrNew d.id then st
    else
      let tid := d.id.getD ""
      if fail st.calls then { st with calls := st.calls + 1 }
      else
        match textOrNone d.text with
        | none =>
          { st with
            stats := { st.stats with deleted := st.stats.deleted + 1 }
            ops := st.ops ++ [.delete tid]
            calls := st.calls + 1 }
        | some t =>
          let nid := uuid st.uuids
          if fail (st.calls + 1) then
            { st with
              ops := st.ops ++ [.delete tid]
              calls := st.calls + 2
              uuids := st.uuids + 1 }
          else
            { st with
              stats := { st.stats with deleted := st.stats.deleted + 1 }
              ops := st.ops ++ [.delete tid, .store nid t]
              calls := st.calls + 2
              uuids := st.uuids + 1 }
  else if event = "NONE" then
    { st with stats := { st.stats with noneCount := st.stats.noneCount + 1 } }
  else st

def initApplyState : ApplyState := ⟨⟨0, 0, 0, 0⟩, [], 0, 0⟩

/-- `applyMemoryDecisions` from `index.js` over the store-call failure oracle
`fail` and the uuid supply `uuid`. -/
def applyMemoryDecisions (fail : ℕ → Bool) (uuid : ℕ → String) (ds : List DecisionRec) :
    ApplyState :=
  ds.foldl (applyOne fail uuid) initApplyState

/-- Does the decision's whole mutation path complete (so that its counter is
bumped), given the store-call counter at which it starts? -/
def completesAt (fail : ℕ → Bool) (calls : ℕ) (d : DecisionRec) : Bool :=
  let event := upperAscii (d.event.getD "")
  if event = "ADD" then (textOrNone d.text).isSome && !fail calls
  else if event = "UPDATE" then
    (textOrNone d.text).isSome && !idFalsyOrNew d.id && !fail calls
  else if event = "DELETE" then
    !idFalsyOrNew d.id && !fail calls &&
      ((textOrNone d.text).isNone || !fail (calls + 1))
  else event = "NONE"

/-- `db.search` filters the raw backend hits by the relevance threshold. -/
def dbSearchFilter (raw : List Hit) (threshold : ℚ) : List Hit :=
  raw.filter (fun h => scoreGe h threshold)

/-- Outcome of the `memory_store` tool body. -/
inductive StoreOutcome
  | storeFailed
  | emptyAfterCleanup
  | duplicate (id : String)
  | stored (id : String)
deriving DecidableEq

/-- The `memory_store` tool `execute` body: `ensureIndex` (modelled by
`indexOk`; a throw is caught and reported), tag stripping plus
normalisation, the `isDuplicate` check (a top-1 search at the deduplication
threshold), then a single store under a fresh id.  `search1` is the raw
backend response for the top-1 query; category metadata is not modelled
because no claim concerns it. -/
def memoryStoreExecute (indexOk : Bool) (search1 : String → List Hit) (dedupT : ℚ)
    (newId : String) (text : String) : StoreOutcome × List DbOp :=
  if !indexOk then (.storeFailed, [])
  else
    let clean := normalizeFact (stripMemoryTags text)
    if clean = "" then (.emptyAfterCleanup, [])
    else
      match (dbSearchFilter (search1 clean) dedupT).head? with
      | some dup => (.duplicate dup.id, [])
      | none => (.stored newId, [.store newId clean])

/-- `pat` occurs as a contiguous substring. -/
def occursIn (pat s : List Char) : Prop := ∃ x y, s = x ++ pat ++ y

/-- No proper non-empty prefix of `pat` is also a suffix of `pat`.  Both
memory-tag delimiters satisfy this, which rules out delimiter occurrences
straddling a boundary with surrounding text. -/
def borderFree (pat : List Char) : Prop :=
  ∀ k, k < pat.length → 0 < k → pat.take k ≠ pat.drop (pat.length - k)

/-- A structured input for the tag stripper: each pair is a free-text
segment followed by one well-formed
`<relevant-memories>…</relevant-memories>` block, and `tail` is the free
text after the last block. -/
def renderBlocks : List (List Char × List Char) → List Char → List Char
  | [], tail => tail
  | (t, b) :: more, tail => t ++ (openTag ++ (b ++ (closeTag ++ renderBlocks more tail)))

/-- The concatenation of the free-text segments (what stripping keeps). -/
def textParts : List (List Char × List Char) → List Char → List Char
  | [], tail => tail
  | (t, _) :: more, tail => t ++ textParts more tail

/-- The spec's wording of the similarity score: the Jaccard index
`|A ∩ B| / |A ∪ B|` of the two token sets, `0` when either set is empty. -/
def jaccardSpec (A B : Finset String) : ℚ :=
  if A = ∅ ∨ B = ∅ then 0 else ((A ∩ B).card : ℚ) / ((A ∪ B).card : ℚ)

/-- Total of the four decision counters. -/
def statTotal (s : ApplyStats) : ℕ := s.added + s.updated + s.deleted + s.noneCount

/-- Whitespace-canonical text: every whitespace character is a plain space
and no two adjacent characters are both whitespace (the invariant
`replace(/\s+/g, " ")` establishes). -/
def wsCanonical (l : List Char) : Prop :=
  (∀ c ∈ l, isWsChar c = true → c = ' ') ∧
    List.Chain' (fun a b => ¬(isWsChar a = true ∧ isWsChar b = true)) l

/-! ## Theorems -/

/-- C3: for every input message list, the LLM fact-extraction variant builds
the conversation text sent to the backend exclusively from user-authored
messages: the text only depends on the messages whose role is `"user"`, and
when no user message is present the conversation text is empty (so no
assistant-authored text ever reaches the prompt). -/
theorem llmConversationText_userOnly (msgs : List Msg) :
    llmConversationText msgs = llmConversationText (msgs.filter (fun m => m.role = "user")) ∧
    ((∀ m ∈ msgs, m.role ≠ "user") → llmConversationText msgs = "") := by
  constructor
  · unfold llmConversationText
    rw [List.filter_filter]
    simp
  · intro h
    have hnil : msgs.filter (fun m => m.role = "user") = [] :=
      List.filter_eq_nil_iff.mpr (fun m hm => by simp [h m hm])
    unfold llmConversationText
    rw [hnil]
    rfl

/-- C3 witness: an assistant-only conversation yields an empty prompt. -/
theorem llmConversationText_userOnly_witness :
    (∀ m ∈ [(⟨"assistant", .str "I recommend using TypeScript"⟩ : Msg)], m.role ≠ "user") ∧
    llmConversationText [⟨"assistant", .str "I recommend using TypeScript"⟩] = "" :=
  ⟨by decide,
    (llmConversationText_userOnly [⟨"assistant", .str "I recommend using TypeScript"⟩]).2
      (by decide)⟩

/-- C5 counterexample: the claim says a present-but-empty top-level `content`
is skipped in favour of later non-empty paths; the code's `??` chain instead
stops at the first non-nullish value, so with `content: ""` and
`fields.content: "later text"` it returns `""`, not `"later text"`. -/
theorem extractHitContent_firstNonEmpty_cex :
    extractHitContent ⟨"m1", none, some "", some "later text", none, none, none⟩ = "" ∧
    extractHitContent ⟨"m1", none, some "", some "later text", none, none, none⟩ ≠
      "later text" := by
  exact ⟨by decide, by decide⟩

/-- C5 (amended): `extractHitContent` tries the content paths in the fixed
order (top-level, fields, metadata, record, values) and returns the first
PRESENT (non-nullish) value, trimmed — an empty string present at an earlier
path shadows later paths — and falls back to `""` when every path is
absent. -/
theorem extractHitContent_firstPresent (h : Hit) :
    (h.content = none → h.fieldsContent = none → h.metadataContent = none →
      h.recordContent = none → h.valuesContent = none → extractHitContent h = "") ∧
    (∀ s, h.content = some s → extractHitContent h = jsTrim s) ∧
    (∀ s, h.content = none → h.fieldsContent = some s → extractHitContent h = jsTrim s) ∧
    (∀ s, h.content = none → h.fieldsContent = none → h.metadataContent = some s →
      extractHitContent h = jsTrim s) ∧
    (∀ s, h.content = none → h.fieldsContent = none → h.metadataContent = none →
      h.recordContent = some s → extractHitContent h = jsTrim s) ∧
    (∀ s, h.content = none → h.fieldsContent = none → h.metadataContent = none →
      h.recordContent = none → h.valuesContent = some s → extractHitContent h = jsTrim s) := by
  refine ⟨?_, ?_, ?_, ?_, ?_, ?_⟩ <;> intros <;> simp [extractHitContent, Option.or, *]
  rfl

/-- C5 witness: with only `fields.content` present, its trimmed text is
returned. -/
theorem extractHitContent_firstPresent_witness :
    (⟨"w5", none, none, some "field content", none, none, none⟩ : Hit).content = none ∧
    extractHitContent ⟨"w5", none, none, some "field content", none, none, none⟩ =
      jsTrim "field content" :=
  ⟨rfl, (extractHitContent_firstPresent _).2.2.1 "field content" rfl rfl⟩

/-- The result of the update/add tail is never a delete decision. -/
theorem updateOrAdd_ne_delete (cfg : CaptureConfig) (newId fact : String)
    (nearby : List Hit) (tid : String) :
    (updateOrAdd cfg newId fact nearby).1 ≠ .ddelete tid := by
  unfold updateOrAdd
  cases nearby.find? (isUpdateTarget cfg fact) <;> simp

/-- C4: heuristic reconciliation evaluates its checks in strict priority
order with first match winning: if some nearby hit has relevance at or above
the deduplication threshold or lexical similarity with the fact at or above
0.95, the decision is NONE and no store mutation is issued for that fact
(regardless of whether the same hit also qualifies as a contradiction or
update target); if no check matches any hit, the decision is ADD under the
freshly generated id, storing the fact. -/
theorem heuristicStep_priority (cfg : CaptureConfig) (newId fact : String)
    (nearby : List Hit) :
    ((∃ h ∈ nearby, scoreGe h cfg.deduplicationThreshold = true ∨
        mkRat 95 100 ≤ similarity fact (extractHitContent h)) →
      heuristicStep cfg newId fact nearby = (.dnone, [])) ∧
    ((∀ h ∈ nearby, ¬ scoreGe h cfg.deduplicationThreshold = true ∧
        ¬ mkRat 95 100 ≤ similarity fact (extractHitContent h) ∧
        ¬ isContradiction fact (extractHitContent h) = true ∧
        ¬ scoreGe h cfg.updateThreshold = true ∧
        ¬ cfg.updateThreshold ≤ similarity fact (extractHitContent h)) →
      heuristicStep cfg newId fact nearby = (.dadd newId, [.store newId fact])) := by
  constructor
  · intro hex
    have hsome : (nearby.find? (isExactDup cfg fact)).isSome := by
      rw [List.find?_isSome]
      obtain ⟨h, hmem, hcond⟩ := hex
      exact ⟨h, hmem, by simp [isExactDup]; tauto⟩
    cases hfs : nearby.find? (isExactDup cfg fact) with
    | none => rw [hfs] at hsome; simp at hsome
    | some u => simp [heuristicStep, hfs]
  · intro hall
    have hdup : nearby.find? (isExactDup cfg fact) = none := by
      rw [List.find?_eq_none]
      intro h hmem
      obtain ⟨a1, a2, _, _, _⟩ := hall h hmem
      simp [isExactDup]
      exact ⟨by simpa using a1, not_le.mp a2⟩
    have hcon : nearby.find? (fun h => isContradiction fact (extractHitContent h)) = none := by
      rw [List.find?_eq_none]
      intro h hmem
      exact (hall h hmem).2.2.1
    have hupd : nearby.find? (isUpdateTarget cfg fact) = none := by
      rw [List.find?_eq_none]
      intro h hmem
      obtain ⟨_, _, _, a4, a5⟩ := hall h hmem
      simp [isUpdateTarget]
      exact ⟨by simpa using a4, not_le.mp a5⟩
    simp [heuristicStep, updateOrAdd, hdup, hcon, hupd]

/-- C4 witness: a 0.97-relevance duplicate forces NONE; with no nearby hits
the fact is added under the fresh id. -/
theorem heuristicStep_priority_witness :
    (∃ h ∈ [(⟨"dup-id", some (mkRat 97 100), some "I like dark mode",
        none, none, none, none⟩ : Hit)],
      scoreGe h (⟨mkRat 95 100, mkRat 72 100, mkRat 45 100⟩ :
        CaptureConfig).deduplicationThreshold = true ∨
        mkRat 95 100 ≤ similarity "I like dark mode" (extractHitContent h)) ∧
    heuristicStep ⟨mkRat 95 100, mkRat 72 100, mkRat 45 100⟩ "fresh1" "I like dark mode"
      [⟨"dup-id", some (mkRat 97 100), some "I like dark mode", none, none, none, none⟩] =
      (.dnone, []) ∧
    heuristicStep ⟨mkRat 95 100, mkRat 72 100, mkRat 45 100⟩ "fresh2" "some new fact" [] =
      (.dadd "fresh2", [.store "fresh2" "some new fact"]) :=
  ⟨by decide,
    (heuristicStep_priority ⟨mkRat 95 100, mkRat 72 100, mkRat 45 100⟩ "fresh1"
      "I like dark mode" _).1 (by decide),
    (heuristicStep_priority ⟨mkRat 95 100, mkRat 72 100, mkRat 45 100⟩ "fresh2"
      "some new fact" []).2 (by decide)⟩

/-- C1 counterexample: on the spec's own example — fact
`"I dislike dark mode now"` (non-empty) against a nearby hit
`{text: "I like dark mode", relevance: 0.6}` with delete threshold 0.45 —
the decision is DELETE on the hit, but the only mutation issued is the
delete: no replacement record carrying the fact's text is stored, refuting
the claim's replacement-record clause. -/
theorem heuristicDelete_noReplacement_cex :
    (heuristicStep ⟨mkRat 95 100, mkRat 72 100, mkRat 45 100⟩ "fresh-id"
      "I dislike dark mode now"
      [⟨"existing-id", some (mkRat 6 10), some "I like dark mode",
        none, none, none, none⟩]).1 = .ddelete "existing-id" ∧
    "I dislike dark mode now" ≠ "" ∧
    (heuristicStep ⟨mkRat 95 100, mkRat 72 100, mkRat 45 100⟩ "fresh-id"
      "I dislike dark mode now"
      [⟨"existing-id", some (mkRat 6 10), some "I like dark mode",
        none, none, none, none⟩]).2 = [.delete "existing-id"] := by
  exact ⟨by decide, by decide, by decide⟩

/-- C1 (amended): whenever the heuristic per-fact decision is DELETE, the
only store mutation issued for that fact is the deletion of the contradicted
memory — no replacement record is stored; the fact's text is discarded even
when non-empty. -/
theorem heuristicStep_delete_ops (cfg : CaptureConfig) (newId fact : String)
    (nearby : List Hit) (tid : String)
    (hdel : (heuristicStep cfg newId fact nearby).1 = .ddelete tid) :
    (heuristicStep cfg newId fact nearby).2 = [.delete tid] := by
  cases hfs : nearby.find? (isExactDup cfg fact) with
  | some u => simp [heuristicStep, hfs] at hdel
  | none =>
    cases hc : nearby.find? (fun h => isContradiction fact (extractHitContent h)) with
    | none =>
      simp only [heuristicStep, hfs, hc] at hdel
      exact absurd hdel (updateOrAdd_ne_delete cfg newId fact nearby tid)
    | some c =>
      by_cases hs : scoreGe c cfg.deleteThreshold = true
      · simp only [heuristicStep, hfs, hc, hs, if_true] at hdel ⊢
        simp at hdel
        simp [hdel]
      · have hs' : scoreGe c cfg.deleteThreshold = false := by simpa using hs
        simp only [heuristicStep, hfs, hc, hs', Bool.false_eq_true, if_false] at hdel ⊢
        exact absurd hdel (updateOrAdd_ne_delete cfg newId fact nearby tid)

/-- C1 witness: the amended statement at the spec's example input. -/
theorem heuristicStep_delete_ops_witness :
    (heuristicStep ⟨mkRat 95 100, mkRat 72 100, mkRat 45 100⟩ "w1-id"
      "I dislike dark mode now"
      [⟨"old-mem", some (mkRat 6 10), some "I like dark mode",
        none, none, none, none⟩]).1 = .ddelete "old-mem" ∧
    (heuristicStep ⟨mkRat 95 100, mkRat 72 100, mkRat 45 100⟩ "w1-id"
      "I dislike dark mode now"
      [⟨"old-mem", some (mkRat 6 10), some "I like dark mode",
        none, none, none, none⟩]).2 = [.delete "old-mem"] :=
  ⟨by decide,
    heuristicStep_delete_ops ⟨mkRat 95 100, mkRat 72 100, mkRat 45 100⟩ "w1-id"
      "I dislike dark mode now"
      [⟨"old-mem", some (mkRat 6 10), some "I like dark mode", none, none, none, none⟩]
      "old-mem" (by decide)⟩

theorem ws_isMarker (c : Char) (h : isWsChar c = true) : isMarkerChar c = true := by
  simp [isMarkerChar, h]

theorem collapseWs_cons_not_ws (c : Char) (l : List Char) (h : isWsChar c = false) :
    collapseWs (c :: l) = c :: collapseWs l := by
  cases l with
  | nil => simp [collapseWs, h]
  | cons d ds => simp [collapseWs, h]

theorem trimRight_cons_not_ws (c : Char) (l : List Char) (h : isWsChar c = false) :
    trimRightChars (c :: l) = c :: trimRightChars l := by
  cases htr : trimRightChars l with
  | nil => simp [trimRightChars, htr, h]
  | cons x xs => simp [trimRightChars, htr]

theorem dropWhile_head_false (p : Char → Bool) (l : List Char) (c : Char) (cs : List Char)
    (h : l.dropWhile p = c :: cs) : p c = false := by
  induction l with
  | nil => simp at h
  | cons a as ih =>
    rw [List.dropWhile_cons] at h
    by_cases hp : p a = true
    · rw [if_pos hp] at h; exact ih h
    · rw [if_neg hp] at h
      cases h
      simpa using hp

theorem dropWhile_idem (p : Char → Bool) (l : List Char) :
    (l.dropWhile p).dropWhile p = l.dropWhile p := by
  induction l with
  | nil => rfl
  | cons c cs ih =>
    by_cases h : p c = true
    · simp [List.dropWhile_cons, h, ih]
    · simp [List.dropWhile_cons, h]

theorem trimRight_eq_reverse (l : List Char) :
    trimRightChars l = (l.reverse.dropWhile isWsChar).reverse := by
  induction l with
  | nil => rfl
  | cons c cs ih =>
    rw [List.reverse_cons, List.dropWhile_append]
    cases hd : cs.reverse.dropWhile isWsChar with
    | nil =>
      have h0 : trimRightChars cs = [] := by rw [ih, hd, List.reverse_nil]
      by_cases hc : isWsChar c = true <;>
        simp [trimRightChars, h0, hc, List.dropWhile_cons]
    | cons y ys =>
      have h0 : trimRightChars cs = (y :: ys).reverse := by rw [ih, hd]
      cases h1 : trimRightChars cs with
      | nil => rw [h1] at h0; simp at h0
      | cons a as =>
        have h2 : trimRightChars (c :: cs) = c :: a :: as := by
          simp [trimRightChars, h1]
        rw [h2, ← h1, h0]
        simp

theorem trimRight_idem (l : List Char) :
    trimRightChars (trimRightChars l) = trimRightChars l := by
  simp [trimRight_eq_reverse, dropWhile_idem]

theorem trimLeft_cons_not_ws (c : Char) (l : List Char) (h : isWsChar c = false) :
    trimLeftChars (c :: l) = c :: l := by
  simp [trimLeftChars, List.dropWhile_cons, h]

theorem trimRight_front (l : List Char) : trimRightChars l <+: l := by
  rw [trimRight_eq_reverse]
  have h1 : l.reverse.dropWhile isWsChar <:+ l.reverse := List.dropWhile_suffix _
  have h2 := List.reverse_prefix.mpr h1
  rwa [List.reverse_reverse] at h2

theorem trimChars_within (l : List Char) : trimChars l <:+: l := by
  obtain ⟨u, hu⟩ := trimRight_front (trimLeftChars l)
  have hsuf : trimLeftChars l <:+ l := List.dropWhile_suffix isWsChar
  obtain ⟨v, hv⟩ := hsuf
  refine ⟨v, u, ?_⟩
  show v ++ trimRightChars (trimLeftChars l) ++ u = l
  rw [List.append_assoc, hu, hv]

theorem trimChars_idem (l : List Char) : trimChars (trimChars l) = trimChars l := by
  unfold trimChars
  have hhead : trimLeftChars (trimRightChars (trimLeftChars l)) =
      trimRightChars (trimLeftChars l) := by
    cases hm2 : trimLeftChars l with
    | nil => rfl
    | cons c cs =>
      have hc : isWsChar c = false := dropWhile_head_false isWsChar l c cs hm2
      rw [trimRight_cons_not_ws c cs hc]
      exact trimLeft_cons_not_ws c (trimRightChars cs) hc
  rw [hhead, trimRight_idem]

theorem collapseWs_canonical (l : List Char) : wsCanonical (collapseWs l) := by
  induction l with
  | nil => exact ⟨by simp [collapseWs], by simp [collapseWs]⟩
  | cons c cs ih =>
    cases cs with
    | nil =>
      by_cases h : isWsChar c = true <;>
        exact ⟨by intro x hx hw; simp [collapseWs, h] at hx; simp [hx, h] at hw ⊢,
          by simp [collapseWs, h]⟩
    | cons d ds =>
      by_cases h1 : isWsChar c = true
      · by_cases h2 : isWsChar d = true
        · have : collapseWs (c :: d :: ds) = collapseWs (d :: ds) := by
            simp [collapseWs, h1, h2]
          rw [this]; exact ih
        · have heq : collapseWs (c :: d :: ds) = ' ' :: collapseWs (d :: ds) := by
            simp [collapseWs, h1, h2]
          rw [heq]
          refine ⟨?_, ?_⟩
          · intro x hx hw
            rcases List.mem_cons.mp hx with hx | hx
            · exact hx
            · exact ih.1 x hx hw
          · rw [List.chain'_cons']
            refine ⟨?_, ih.2⟩
            intro b hb
            have hM : collapseWs (d :: ds) = d :: collapseWs ds :=
              collapseWs_cons_not_ws d ds (by simpa using h2)
            rw [hM] at hb
            simp at hb
            rw [← hb]
            simp [h2]
      · have heq : collapseWs (c :: d :: ds) = c :: collapseWs (d :: ds) :=
          collapseWs_cons_not_ws c (d :: ds) (by simpa using h1)
        rw [heq]
        refine ⟨?_, ?_⟩
        · intro x hx hw
          rcases List.mem_cons.mp hx with hx | hx
          · rw [hx] at hw; exact absurd hw (by simpa using h1)
          · exact ih.1 x hx hw
        · rw [List.chain'_cons']
          refine ⟨?_, ih.2⟩
          intro b _
          simp [h1]

theorem collapseWs_eq_self (l : List Char) (h : wsCanonical l) : collapseWs l = l := by
  induction l with
  | nil => rfl
  | cons c cs ih =>
    cases cs with
    | nil =>
      by_cases hc : isWsChar c = true
      · have hc' : c = ' ' := h.1 c (by simp) hc
        simp [collapseWs, hc, hc']
      · simp [collapseWs, hc]
    | cons d ds =>
      have htail : wsCanonical (d :: ds) :=
        ⟨fun x hx hw => h.1 x (List.mem_cons_of_mem _ hx) hw, (List.chain'_cons.mp h.2).2⟩
      have hnb : ¬(isWsChar c = true ∧ isWsChar d = true) := (List.chain'_cons.mp h.2).1
      by_cases hc : isWsChar c = true
      · have hc' : c = ' ' := h.1 c (by simp) hc
        have hd : isWsChar d = false := by
          by_cases hd' : isWsChar d = true
          · exact absurd ⟨hc, hd'⟩ hnb
          · simpa using hd'
        simp [collapseWs, hc, hd, hc', ih htail]
      · simp [collapseWs, hc, ih htail]

theorem wsCanonical_mono {l m : List Char} (h : wsCanonical l) (hinf : m <:+: l) :
    wsCanonical m := by
  obtain ⟨u, v, rfl⟩ := hinf
  refine ⟨fun c hc hw => h.1 c (by simp [hc]) hw, ?_⟩
  have h2 : List.Chain' (fun a b => ¬(isWsChar a = true ∧ isWsChar b = true)) (u ++ (m ++ v)) := by
    have := h.2
    rwa [List.append_assoc] at this
  exact h2.right_of_append.left_of_append

/-- C9: `normalizeFact` is idempotent: stripping leading list markers,
collapsing whitespace runs and trimming, applied twice, equals applying it
once. -/
theorem normalizeFact_idem (s : String) :
    normalizeFact (normalizeFact s) = normalizeFact s := by
  unfold normalizeFact
  congr 1
  show trimChars (collapseWs (List.dropWhile isMarkerChar
    (trimChars (collapseWs (s.data.dropWhile isMarkerChar))))) =
    trimChars (collapseWs (s.data.dropWhile isMarkerChar))
  cases hx : s.data.dropWhile isMarkerChar with
  | nil => rfl
  | cons a x' =>
    have hMa : isMarkerChar a = false := dropWhile_head_false isMarkerChar s.data a x' hx
    have hWa : isWsChar a = false := by
      by_cases hw : isWsChar a = true
      · rw [ws_isMarker a hw] at hMa; simp at hMa
      · simpa using hw
    have hcol : collapseWs (a :: x') = a :: collapseWs x' := collapseWs_cons_not_ws a x' hWa
    have hr : trimChars (collapseWs (a :: x')) =
        a :: trimRightChars (collapseWs x') := by
      unfold trimChars
      rw [hcol, trimLeft_cons_not_ws a _ hWa, trimRight_cons_not_ws a _ hWa]
    -- the once-normalised text starts with a non-marker character
    have hdrop : List.dropWhile isMarkerChar (trimChars (collapseWs (a :: x'))) =
        trimChars (collapseWs (a :: x')) := by
      rw [hr, List.dropWhile_cons, hMa]
      simp
    have hcanon : wsCanonical (trimChars (collapseWs (a :: x'))) :=
      wsCanonical_mono (collapseWs_canonical (a :: x')) (trimChars_within _)
    rw [hdrop, collapseWs_eq_self _ hcanon, trimChars_idem]

/-- The implementation's similarity (membership-counting loop, two-set
union, guarded division written `mkRat`) computes exactly the spec's Jaccard
index. -/
theorem similarity_eq_jaccard (a b : String) :
    similarity a b = jaccardSpec (tokenSet a) (tokenSet b) := by
  unfold similarity jaccardSpec
  by_cases ha : tokenSet a = ∅
  · simp [ha]
  · by_cases hb : tokenSet b = ∅
    · simp [hb]
    · have hca : ¬ (tokenSet a).card = 0 := by simpa [Finset.card_eq_zero] using ha
      have hcb : ¬ (tokenSet b).card = 0 := by simpa [Finset.card_eq_zero] using hb
      have hu : (tokenSet a ∪ tokenSet b).card ≠ 0 := by
        simp only [ne_eq, Finset.card_eq_zero, Finset.union_eq_empty]
        exact fun hc => ha hc.1
      simp only [hca, hcb, ha, hb, hu, Bool.or_eq_true, decide_eq_true_eq, or_self,
        if_false, if_neg, false_or]
      rw [Finset.filter_mem_eq_inter, Rat.mkRat_eq_div]
      push_cast
      ring

theorem jaccard_nonneg (A B : Finset String) : 0 ≤ jaccardSpec A B := by
  unfold jaccardSpec
  split
  · exact le_refl 0
  · positivity

theorem jaccard_le_one (A B : Finset String) : jaccardSpec A B ≤ 1 := by
  unfold jaccardSpec
  split
  · exact zero_le_one
  · rename_i h
    push_neg at h
    have hpos : (0 : ℚ) < ((A ∪ B).card : ℚ) := by
      have : (A ∪ B).Nonempty := Finset.Nonempty.inl (Finset.nonempty_iff_ne_empty.mpr h.1)
      exact_mod_cast Finset.card_pos.mpr this
    rw [div_le_one hpos]
    exact_mod_cast Finset.card_le_card Finset.inter_subset_union

/-- C8: `similarity` equals the Jaccard index of the two token sets
(lowercased alphanumeric tokens of length `> 2`, duplicates collapsed), lies
in `[0, 1]`, is `0` when either token set is empty, is symmetric, and is `1`
on any text whose token set is non-empty. -/
theorem similarity_jaccard_props :
    (∀ a b, similarity a b = jaccardSpec (tokenSet a) (tokenSet b)) ∧
    (∀ a b, 0 ≤ similarity a b ∧ similarity a b ≤ 1) ∧
    (∀ a b, tokenSet a = ∅ ∨ tokenSet b = ∅ → similarity a b = 0) ∧
    (∀ a b, similarity a b = similarity b a) ∧
    (∀ x, tokenSet x ≠ ∅ → similarity x x = 1) := by
  refine ⟨similarity_eq_jaccard, ?_, ?_, ?_, ?_⟩
  · intro a b
    rw [similarity_eq_jaccard]
    exact ⟨jaccard_nonneg _ _, jaccard_le_one _ _⟩
  · intro a b h
    rw [similarity_eq_jaccard]
    unfold jaccardSpec
    simp [h]
  · intro a b
    rw [similarity_eq_jaccard, similarity_eq_jaccard]
    unfold jaccardSpec
    rw [Finset.inter_comm, Finset.union_comm]
    exact if_congr or_comm rfl rfl
  · intro x hx
    rw [similarity_eq_jaccard]
    unfold jaccardSpec
    have hpos : (0 : ℚ) < ((tokenSet x ∪ tokenSet x).card : ℚ) := by
      have : (tokenSet x ∪ tokenSet x).Nonempty :=
        Finset.Nonempty.inl (Finset.nonempty_iff_ne_empty.mpr hx)
      exact_mod_cast Finset.card_pos.mpr this
    simp only [hx, or_self, if_false, if_neg, Finset.inter_self, Finset.union_self]
    rw [div_self]
    simp only [Finset.union_self] at hpos
    exact ne_of_gt hpos

/-- C8 witness: a text with three tokens longer than two characters has a
non-empty token set and self-similarity exactly `1`. -/
theorem similarity_jaccard_props_witness :
    tokenSet "dark mode settings" ≠ ∅ ∧
    similarity "dark mode settings" "dark mode settings" = 1 :=
  ⟨by decide, similarity_jaccard_props.2.2.2.2 "dark mode settings" (by decide)⟩

/-- C10: the `memory_store` tool mutates no state on its refusal paths: a
setup failure, an input that normalises to the empty string after tag
stripping, or an existing memory found by the top-1 dedup search (whose
relevance is then necessarily ≥ the deduplication threshold) each return an
outcome with no store call; only when both checks pass is exactly one record
stored, under the freshly generated id. -/
theorem memoryStoreExecute_contract (indexOk : Bool) (search1 : String → List Hit)
    (dedupT : ℚ) (newId text : String) :
    (indexOk = false →
      memoryStoreExecute indexOk search1 dedupT newId text = (.storeFailed, [])) ∧
    (indexOk = true → normalizeFact (stripMemoryTags text) = "" →
      memoryStoreExecute indexOk search1 dedupT newId text = (.emptyAfterCleanup, [])) ∧
    (∀ dup, indexOk = true → normalizeFact (stripMemoryTags text) ≠ "" →
      (dbSearchFilter (search1 (normalizeFact (stripMemoryTags text))) dedupT).head? =
        some dup →
      memoryStoreExecute indexOk search1 dedupT newId text = (.duplicate dup.id, []) ∧
        scoreGe dup dedupT = true) ∧
    (indexOk = true → normalizeFact (stripMemoryTags text) ≠ "" →
      (dbSearchFilter (search1 (normalizeFact (stripMemoryTags text))) dedupT).head? =
        none →
      memoryStoreExecute indexOk search1 dedupT newId text =
        (.stored newId, [.store newId (normalizeFact (stripMemoryTags text))])) := by
  refine ⟨?_, ?_, ?_, ?_⟩
  · intro h
    simp [memoryStoreExecute, h]
  · intro h hclean
    simp [memoryStoreExecute, h, hclean]
  · intro dup h hclean hdup
    constructor
    · simp [memoryStoreExecute, h, hclean, hdup]
    · have hmem : dup ∈ dbSearchFilter (search1 (normalizeFact (stripMemoryTags text))) dedupT :=
        List.mem_of_mem_head? (by rw [hdup]; rfl)
      exact (List.mem_filter.mp hmem).2
  · intro h hclean hnone
    simp [memoryStoreExecute, h, hclean, hnone]

/-- C10 witness: with a working index and no nearby duplicate, exactly one
record is stored under the fresh id; category metadata aside, the stored
text is the normalised input. -/
theorem memoryStoreExecute_contract_witness :
    normalizeFact (stripMemoryTags "Use bun instead of npm") ≠ "" ∧
    memoryStoreExecute true (fun _ => []) (mkRat 95 100) "fresh-uuid"
      "Use bun instead of npm" =
      (.stored "fresh-uuid", [.store "fresh-uuid" "Use bun instead of npm"]) := by
  refine ⟨by decide, ?_⟩
  have h := (memoryStoreExecute_contract true (fun _ => []) (mkRat 95 100) "fresh-uuid"
    "Use bun instead of npm").2.2.2 rfl (by decide) rfl
  rw [h]
  decide

/-- In a pair list whose second components are distinct, the second
component determines the first. -/
theorem pairs_functional {l : List (String × String)}
    (hnd : (l.map Prod.snd).Nodup) {p1 p2 r : String}
    (h1 : (p1, r) ∈ l) (h2 : (p2, r) ∈ l) : p1 = p2 := by
  induction l with
  | nil => simp at h1
  | cons a as ih =>
    rw [List.map_cons, List.nodup_cons] at hnd
    rcases List.mem_cons.mp h1 with h1 | h1 <;> rcases List.mem_cons.mp h2 with h2 | h2
    · rw [← h1] at h2; exact (Prod.mk.injEq .. ▸ h2).1.symm
    · refine absurd ?_ hnd.1
      have ha : a.2 = r := by rw [← h1]
      rw [ha]
      exact List.mem_map_of_mem Prod.snd h2
    · refine absurd ?_ hnd.1
      have ha : a.2 = r := by rw [← h2]
      rw [ha]
      exact List.mem_map_of_mem Prod.snd h1
    · exact ih hnd.2 h1 h2

/-- The invariant of the reconciliation id-mapping state: real ids appear at
most once, and the placeholder keys are exactly the decimal numerals of
`0, 1, …, next - 1` in order. -/
def stInv (st : RecState) : Prop :=
  (st.mapping.map Prod.snd).Nodup ∧
    st.mapping.map Prod.fst = (List.range st.next).map toString

theorem assignPlaceholder_spec (st : RecState) (r : String) (hinv : stInv st) :
    stInv (assignPlaceholder st r).2 ∧
    st.mapping <+: (assignPlaceholder st r).2.mapping ∧
    ((assignPlaceholder st r).1, r) ∈ (assignPlaceholder st r).2.mapping := by
  unfold assignPlaceholder
  cases hl : lookupByReal st.mapping r with
  | some k =>
    refine ⟨hinv, List.prefix_refl _, ?_⟩
    unfold lookupByReal at hl
    cases hf : st.mapping.find? (fun p => p.2 = r) with
    | none => rw [hf] at hl; simp at hl
    | some pr =>
      rw [hf] at hl
      simp at hl
      have hmem := List.mem_of_find?_eq_some hf
      have hp : pr.2 = r := by simpa using List.find?_some hf
      have : pr = (k, r) := by
        rw [← hl, ← hp]
      simpa [this] using hmem
  | none =>
    have hnotin : ∀ p ∈ st.mapping, p.2 ≠ r := by
      intro p hp
      unfold lookupByReal at hl
      cases hf : st.mapping.find? (fun q => q.2 = r) with
      | some q => rw [hf] at hl; simp at hl
      | none => simpa using List.find?_eq_none.mp hf p hp
    refine ⟨⟨?_, ?_⟩, ?_, ?_⟩
    · rw [List.map_append, List.nodup_append]
      refine ⟨hinv.1, by simp, ?_⟩
      intro x hx
      simp only [List.map_cons, List.map_nil, List.mem_singleton]
      intro hxr
      rw [List.mem_map] at hx
      obtain ⟨p, hp, hps⟩ := hx
      exact hnotin p hp (by rw [hps, hxr])
    · rw [List.map_append, hinv.2, List.range_succ, List.map_append]
      simp
    · exact List.prefix_append _ _
    · simp

theorem emitFact_spec (rs : List String) : ∀ st : RecState, stInv st →
    stInv (emitFact st rs).2 ∧ st.mapping <+: (emitFact st rs).2.mapping ∧
    ∀ pr ∈ (emitFact st rs).1, pr ∈ (emitFact st rs).2.mapping := by
  induction rs with
  | nil =>
    intro st h
    exact ⟨h, List.prefix_refl _, by simp [emitFact]⟩
  | cons r rs ih =>
    intro st h
    obtain ⟨h1, h2, h3⟩ := assignPlaceholder_spec st r h
    obtain ⟨g1, g2, g3⟩ := ih (assignPlaceholder st r).2 h1
    have hout : emitFact st (r :: rs) =
        (((assignPlaceholder st r).1, r) :: (emitFact (assignPlaceholder st r).2 rs).1,
          (emitFact (assignPlaceholder st r).2 rs).2) := rfl
    rw [hout]
    refine ⟨g1, h2.trans g2, ?_⟩
    intro pr hpr
    rcases List.mem_cons.mp hpr with hpr | hpr
    · rw [hpr]
      exact g2.subset h3
    · exact g3 pr hpr

theorem emitBatch_spec (batches : List (List String)) : ∀ st : RecState, stInv st →
    stInv (emitBatch st batches).2 ∧ st.mapping <+: (emitBatch st batches).2.mapping ∧
    ∀ f ∈ (emitBatch st batches).1, ∀ pr ∈ f, pr ∈ (emitBatch st batches).2.mapping := by
  induction batches with
  | nil =>
    intro st h
    exact ⟨h, List.prefix_refl _, by simp [emitBatch]⟩
  | cons hits more ih =>
    intro st h
    obtain ⟨h1, h2, h3⟩ := emitFact_spec hits st h
    obtain ⟨g1, g2, g3⟩ := ih (emitFact st hits).2 h1
    have hout : emitBatch st (hits :: more) =
        ((emitFact st hits).1 :: (emitBatch (emitFact st hits).2 more).1,
          (emitBatch (emitFact st hits).2 more).2) := rfl
    rw [hout]
    refine ⟨g1, h2.trans g2, ?_⟩
    intro f hf pr hpr
    rcases List.mem_cons.mp hf with hf | hf
    · rw [hf] at hpr
      exact g2.subset (h3 pr hpr)
    · exact g3 f hf pr hpr

/-- C2: LLM-backed reconciliation replaces every real memory id with a small
sequential integer placeholder (the mapping's keys are exactly the decimal
numerals `0, 1, …` in order and every emitted (placeholder, real-id) pair is
in the mapping); within one batch the same real id always yields the same
placeholder, even across different facts' candidate sets; on the response
side the literal id `"new"` is preserved, a placeholder present in the
mapping is mapped back to its real id, and an id absent from the mapping
passes through unchanged (fail-open). -/
theorem llmReconcile_placeholder_contract (batches : List (List String)) :
    (∀ f1 ∈ (llmAssignPlaceholders batches).1, ∀ f2 ∈ (llmAssignPlaceholders batches).1,
      ∀ p1 p2 r, (p1, r) ∈ f1 → (p2, r) ∈ f2 → p1 = p2) ∧
    ((llmAssignPlaceholders batches).2.mapping.map Prod.fst =
      (List.range (llmAssignPlaceholders batches).2.next).map toString) ∧
    (∀ f ∈ (llmAssignPlaceholders batches).1, ∀ pr ∈ f,
      pr ∈ (llmAssignPlaceholders batches).2.mapping) ∧
    (remapDecisionId (llmAssignPlaceholders batches).2.mapping "new" = "new") ∧
    (∀ p r, lookupByKey (llmAssignPlaceholders batches).2.mapping p = some r → p ≠ "new" →
      remapDecisionId (llmAssignPlaceholders batches).2.mapping p = r) ∧
    (∀ p, lookupByKey (llmAssignPlaceholders batches).2.mapping p = none →
      remapDecisionId (llmAssignPlaceholders batches).2.mapping p = p) := by
  have hinit : stInv ⟨[], 0⟩ := ⟨List.nodup_nil, by simp⟩
  obtain ⟨hfin, _, hmem⟩ := emitBatch_spec batches ⟨[], 0⟩ hinit
  refine ⟨?_, hfin.2, hmem, by simp [remapDecisionId], ?_, ?_⟩
  · intro f1 hf1 f2 hf2 p1 p2 r h1 h2
    exact pairs_functional hfin.1 (hmem f1 hf1 _ h1) (hmem f2 hf2 _ h2)
  · intro p r hlook hp
    simp [remapDecisionId, hp, hlook]
  · intro p hlook
    by_cases hp : p = "new"
    · simp [remapDecisionId, hp]
    · simp [remapDecisionId, hp, hlook]

/-- C2 witness: with the real id `uuid-A` in both facts' candidate sets it
receives the one placeholder `"0"` in both, `uuid-B` gets `"1"`, `"new"`
passes through, the placeholder `"0"` maps back to `uuid-A`, and an unknown
id `"7"` passes through unchanged. -/
theorem llmReconcile_placeholder_contract_witness :
    ("0", "uuid-A") ∈ [("0", "uuid-A"), ("1", "uuid-B")] ∧
    (llmAssignPlaceholders [["uuid-A", "uuid-B"], ["uuid-A"]]).1 =
      [[("0", "uuid-A"), ("1", "uuid-B")], [("0", "uuid-A")]] ∧
    remapDecisionId (llmAssignPlaceholders [["uuid-A", "uuid-B"], ["uuid-A"]]).2.mapping
      "new" = "new" ∧
    remapDecisionId (llmAssignPlaceholders [["uuid-A", "uuid-B"], ["uuid-A"]]).2.mapping
      "0" = "uuid-A" ∧
    remapDecisionId (llmAssignPlaceholders [["uuid-A", "uuid-B"], ["uuid-A"]]).2.mapping
      "7" = "7" := by
  refine ⟨by decide, by decide,
    (llmReconcile_placeholder_contract [["uuid-A", "uuid-B"], ["uuid-A"]]).2.2.2.1, ?_, ?_⟩
  · exact (llmReconcile_placeholder_contract [["uuid-A", "uuid-B"], ["uuid-A"]]).2.2.2.2.1
      "0" "uuid-A" (by decide) (by decide)
  · exact (llmReconcile_placeholder_contract [["uuid-A", "uuid-B"], ["uuid-A"]]).2.2.2.2.2
      "7" (by decide)

/-- C6: `applyMemoryDecisions` processes each decision independently — the
fold over the decision list never aborts, so a caught failure on one
decision leaves every later decision attempted (first conjunct); a decision
with absent or blank-after-trim text performs no mutation for ADD and
UPDATE; a DELETE or UPDATE decision whose id is missing (falsy) or the
literal `"new"` performs no mutation; and each decision bumps the counter
total exactly when its whole mutation path completes under the failure
oracle. -/
theorem applyMemoryDecisions_contract (fail : ℕ → Bool) (uuid : ℕ → String) :
    (∀ ds1 ds2 : List DecisionRec,
      applyMemoryDecisions fail uuid (ds1 ++ ds2) =
        ds2.foldl (applyOne fail uuid) (applyMemoryDecisions fail uuid ds1)) ∧
    (∀ st d, (upperAscii (d.event.getD "") = "ADD" ∨
        upperAscii (d.event.getD "") = "UPDATE") →
      textOrNone d.text = none → applyOne fail uuid st d = st) ∧
    (∀ st d, (upperAscii (d.event.getD "") = "UPDATE" ∨
        upperAscii (d.event.getD "") = "DELETE") →
      idFalsyOrNew d.id = true → applyOne fail uuid st d = st) ∧
    (∀ st d, statTotal (applyOne fail uuid st d).stats =
      statTotal st.stats + (if completesAt fail st.calls d then 1 else 0)) := by
  refine ⟨?_, ?_, ?_, ?_⟩
  · intro ds1 ds2
    exact List.foldl_append (applyOne fail uuid) initApplyState ds1 ds2
  · intro st d hev ht
    rcases hev with hev | hev <;> simp [applyOne, hev, ht]
  · intro st d hev hid
    rcases hev with hev | hev
    · cases ht : textOrNone d.text with
      | none => simp [applyOne, hev, ht]
      | some t => simp [applyOne, hev, ht, hid]
    · simp [applyOne, hev, hid]
  · intro st d
    by_cases e1 : upperAscii (d.event.getD "") = "ADD"
    · cases ht : textOrNone d.text with
      | none => simp [applyOne, completesAt, e1, ht]
      | some t =>
        by_cases hf : fail st.calls = true <;>
          simp [applyOne, completesAt, e1, ht, hf, statTotal] <;> omega
    · by_cases e2 : upperAscii (d.event.getD "") = "UPDATE"
      · cases ht : textOrNone d.text with
        | none => simp [applyOne, completesAt, e1, e2, ht]
        | some t =>
          by_cases hid : idFalsyOrNew d.id = true
          · simp [applyOne, completesAt, e1, e2, ht, hid]
          · by_cases hf : fail st.calls = true <;>
              simp [applyOne, completesAt, e1, e2, ht, hid, hf, statTotal] <;> omega
      · by_cases e3 : upperAscii (d.event.getD "") = "DELETE"
        · by_cases hid : idFalsyOrNew d.id = true
          · simp [applyOne, completesAt, e1, e2, e3, hid]
          · by_cases hf : fail st.calls = true
            · simp [applyOne, completesAt, e1, e2, e3, hid, hf]
            · cases ht : textOrNone d.text with
              | none => simp [applyOne, completesAt, e1, e2, e3, hid, hf, ht, statTotal]; omega
              | some t =>
                by_cases hf2 : fail (st.calls + 1) = true <;>
                  simp [applyOne, completesAt, e1, e2, e3, hid, hf, ht, hf2, statTotal] <;>
                    omega
        · by_cases e4 : upperAscii (d.event.getD "") = "NONE"
          · simp [applyOne, completesAt, e1, e2, e3, e4, statTotal]; omega
          · simp [applyOne, completesAt, e1, e2, e3, e4]

/-- C6 witness: a first-call failure loses the first ADD but the second ADD
still lands; a blank-text ADD and a placeholder-id DELETE are no-ops; a NONE
decision bumps the counter total by one. -/
theorem applyMemoryDecisions_contract_witness :
    applyMemoryDecisions (fun n => n = 0) (fun k => toString k)
      [⟨some "ADD", some "new", some "Fails"⟩, ⟨some "ADD", some "new", some "Succeeds"⟩] =
      ⟨⟨1, 0, 0, 0⟩, [.store "1" "Succeeds"], 2, 2⟩ ∧
    textOrNone (⟨some "ADD", none, some "   "⟩ : DecisionRec).text = none ∧
    applyOne (fun n => n = 0) (fun k => toString k) initApplyState
      ⟨some "ADD", none, some "   "⟩ = initApplyState ∧
    idFalsyOrNew (⟨some "DELETE", some "new", some "x"⟩ : DecisionRec).id = true ∧
    applyOne (fun n => n = 0) (fun k => toString k) initApplyState
      ⟨some "DELETE", some "new", some "x"⟩ = initApplyState ∧
    statTotal (applyOne (fun n => n = 0) (fun k => toString k) initApplyState
      ⟨some "NONE", none, none⟩).stats = statTotal initApplyState.stats + 1 := by
  refine ⟨by decide, by decide, ?_, by decide, ?_, ?_⟩
  · exact (applyMemoryDecisions_contract (fun n => n = 0) (fun k => toString k)).2.1
      initApplyState ⟨some "ADD", none, some "   "⟩ (Or.inl (by decide)) (by decide)
  · exact (applyMemoryDecisions_contract (fun n => n = 0) (fun k => toString k)).2.2.1
      initApplyState ⟨some "DELETE", some "new", some "x"⟩ (Or.inr (by decide)) (by decide)
  · have h := (applyMemoryDecisions_contract (fun n => n = 0) (fun k => toString k)).2.2.2
      initApplyState ⟨some "NONE", none, none⟩
    rw [h]
    decide

theorem occursIn_iff_drop (pat s : List Char) :
    occursIn pat s ↔ ∃ i, pat.isPrefixOf (s.drop i) = true := by
  constructor
  · rintro ⟨x, y, rfl⟩
    refine ⟨x.length, ?_⟩
    rw [List.append_assoc, List.drop_left, List.isPrefixOf_iff_prefix]
    exact List.prefix_append pat y
  · rintro ⟨i, h⟩
    rw [List.isPrefixOf_iff_prefix] at h
    obtain ⟨z, hz⟩ := h
    exact ⟨s.take i, z, by rw [List.append_assoc, hz, List.take_append_drop]⟩

theorem findSub_nil (pat : List Char) :
    findSub [] pat = if pat.isPrefixOf ([] : List Char) then some 0 else none := rfl

theorem findSub_cons (c : Char) (t pat : List Char) :
    findSub (c :: t) pat =
      if pat.isPrefixOf (c :: t) then some 0 else (findSub t pat).map (· + 1) := rfl

theorem findSub_none_spec (s pat : List Char) (h : findSub s pat = none) :
    ∀ i, ¬ pat.isPrefixOf (s.drop i) = true := by
  induction s with
  | nil =>
    intro i hp
    rw [findSub_nil] at h
    rw [List.drop_nil] at hp
    rw [if_pos hp] at h
    simp at h
  | cons c t ih =>
    intro i hp
    rw [findSub_cons] at h
    by_cases h0 : pat.isPrefixOf (c :: t) = true
    · rw [if_pos h0] at h; simp at h
    · rw [if_neg h0] at h
      have h' : findSub t pat = none := by
        cases hft : findSub t pat with
        | none => rfl
        | some k => rw [hft] at h; simp at h
      cases i with
      | zero => rw [List.drop_zero] at hp; exact h0 hp
      | succ j => exact ih h' j hp

theorem findSub_some_spec (s pat : List Char) :
    ∀ i, findSub s pat = some i →
      pat.isPrefixOf (s.drop i) = true ∧ ∀ j, j < i → ¬ pat.isPrefixOf (s.drop j) = true := by
  induction s with
  | nil =>
    intro i h
    rw [findSub_nil] at h
    by_cases h0 : pat.isPrefixOf ([] : List Char) = true
    · rw [if_pos h0] at h
      cases h
      exact ⟨by simpa using h0, fun j hj => absurd hj (Nat.not_lt_zero j)⟩
    · rw [if_neg h0] at h; simp at h
  | cons c t ih =>
    intro i h
    rw [findSub_cons] at h
    by_cases h0 : pat.isPrefixOf (c :: t) = true
    · rw [if_pos h0] at h
      cases h
      exact ⟨by simpa using h0, fun j hj => absurd hj (Nat.not_lt_zero j)⟩
    · rw [if_neg h0] at h
      cases hft : findSub t pat with
      | none => rw [hft] at h; simp at h
      | some k =>
        rw [hft] at h
        simp at h
        obtain ⟨hk, hmin⟩ := ih k hft
        cases h
        refine ⟨hk, ?_⟩
        intro j hj
        cases j with
        | zero => simpa using h0
        | succ j' => exact hmin j' (Nat.lt_of_succ_lt_succ hj)

theorem findSub_first_of (s pat : List Char) (i : ℕ)
    (hocc : pat.isPrefixOf (s.drop i) = true)
    (hmin : ∀ j, j < i → ¬ pat.isPrefixOf (s.drop j) = true) :
    findSub s pat = some i := by
  cases hf : findSub s pat with
  | none => exact absurd hocc (findSub_none_spec s pat hf i)
  | some k =>
    obtain ⟨hk, hkmin⟩ := findSub_some_spec s pat k hf
    rcases Nat.lt_trichotomy k i with hlt | heq | hgt
    · exact absurd hk (hmin k hlt)
    · rw [heq]
    · exact absurd hocc (hkmin i hgt)

theorem not_occursIn_iff (pat s : List Char) :
    ¬ occursIn pat s ↔ findSub s pat = none := by
  constructor
  · intro h
    cases hf : findSub s pat with
    | none => rfl
    | some i =>
      exact absurd ((occursIn_iff_drop pat s).mpr
        ⟨i, (findSub_some_spec s pat i hf).1⟩) h
  · intro h hocc
    obtain ⟨i, hi⟩ := (occursIn_iff_drop pat s).mp hocc
    exact findSub_none_spec s pat h i hi

theorem findSub_some_bound (s pat : List Char) :
    ∀ i, findSub s pat = some i → i + pat.length ≤ s.length := by
  induction s with
  | nil =>
    intro i h
    rw [findSub_nil] at h
    by_cases h0 : pat.isPrefixOf ([] : List Char) = true
    · rw [if_pos h0] at h
      cases h
      have : pat <+: ([] : List Char) := List.isPrefixOf_iff_prefix.mp h0
      simpa using this.length_le
    · rw [if_neg h0] at h; simp at h
  | cons c t ih =>
    intro i h
    rw [findSub_cons] at h
    by_cases h0 : pat.isPrefixOf (c :: t) = true
    · rw [if_pos h0] at h
      cases h
      have : pat <+: c :: t := List.isPrefixOf_iff_prefix.mp h0
      simpa using this.length_le
    · rw [if_neg h0] at h
      cases hft : findSub t pat with
      | none => rw [hft] at h; simp at h
      | some k =>
        rw [hft] at h
        simp at h
        have := ih k hft
        cases h
        simp only [List.length_cons]
        omega

theorem occursIn_mono {pat m s : List Char} (h : occursIn pat m) (hinf : m <:+: s) :
    occursIn pat s := by
  obtain ⟨x, y, rfl⟩ := h
  obtain ⟨u, v, rfl⟩ := hinf
  exact ⟨u ++ x, y ++ v, by simp⟩

theorem borderFree_of_range (pat : List Char)
    (h : ∀ k ∈ List.range pat.length, 0 < k → pat.take k ≠ pat.drop (pat.length - k)) :
    borderFree pat :=
  fun k hk hpos => h k (List.mem_range.mpr hk) hpos

theorem borderFree_openTag : borderFree openTag :=
  borderFree_of_range openTag (by decide)

theorem borderFree_closeTag : borderFree closeTag :=
  borderFree_of_range closeTag (by decide)

/-- A delimiter occurrence cannot start strictly inside marker-free text `t`
when the text is followed by the delimiter itself: it would either lie
inside `t` or force a non-trivial border of the delimiter. -/
theorem no_occ_left (pat t rest : List Char) (hbf : borderFree pat)
    (hno : ¬ occursIn pat t) (j : ℕ) (hj : j < t.length) :
    ¬ pat.isPrefixOf ((t ++ (pat ++ rest)).drop j) = true := by
  intro hpre
  rw [List.isPrefixOf_iff_prefix] at hpre
  have hdrop : (t ++ (pat ++ rest)).drop j = t.drop j ++ (pat ++ rest) :=
    List.drop_append_of_le_length (Nat.le_of_lt hj)
  rw [hdrop] at hpre
  have hk : (t.drop j).length = t.length - j := List.length_drop j t
  have hkpos : 0 < (t.drop j).length := by omega
  by_cases hcase : pat.length ≤ (t.drop j).length
  · -- the occurrence lies inside `t`
    have heq : pat = (t.drop j).take pat.length := by
      have h1 := List.prefix_iff_eq_take.mp hpre
      rwa [List.take_append_eq_append_take, Nat.sub_eq_zero_of_le hcase,
        List.take_zero, List.append_nil] at h1
    have hsplit : t.drop j = pat ++ (t.drop j).drop pat.length := by
      conv_lhs => rw [← List.take_append_drop pat.length (t.drop j)]
      rw [← heq]
    refine hno ⟨t.take j, (t.drop j).drop pat.length, ?_⟩
    rw [List.append_assoc, ← hsplit, List.take_append_drop]
  · -- the occurrence would straddle the boundary: a border of `pat`
    push_neg at hcase
    have h1 := List.prefix_iff_eq_take.mp hpre
    rw [List.take_append_eq_append_take, List.take_of_length_le (Nat.le_of_lt hcase),
      List.take_append_eq_append_take] at h1
    have hz : pat.length - (t.drop j).length - pat.length = 0 := by omega
    rw [hz, List.take_zero, List.append_nil] at h1
    -- h1 : pat = t.drop j ++ pat.take (pat.length - (t.drop j).length)
    have hdk : pat.drop (t.drop j).length =
        pat.take (pat.length - (t.drop j).length) := by
      conv_lhs => rw [h1]
      rw [List.drop_append_eq_append_drop, List.drop_of_length_le (Nat.le_refl _),
        Nat.sub_self, List.drop_zero, List.nil_append]
    have hlt : pat.length - (t.drop j).length < pat.length := by omega
    have hpos : 0 < pat.length - (t.drop j).length := by omega
    exact hbf (pat.length - (t.drop j).length) hlt hpos
      (by rw [Nat.sub_sub_self (Nat.le_of_lt hcase), hdk])

theorem stripCoreF_succ (fuel : ℕ) (s : List Char) :
    stripCoreF (fuel + 1) s =
      match findSub s openTag with
      | none => s
      | some i =>
        match findSub (s.drop (i + openTag.length)) closeTag with
        | none => s
        | some j =>
          s.take i ++
            stripCoreF fuel ((s.drop (i + openTag.length)).drop (j + closeTag.length)) := rfl

theorem stripCoreF_no_open (fuel : ℕ) (s : List Char) (h : ¬ occursIn openTag s) :
    stripCoreF fuel s = s := by
  cases fuel with
  | zero => rfl
  | succ f =>
    have hnone : findSub s openTag = none := (not_occursIn_iff openTag s).mp h
    rw [stripCoreF_succ, hnone]

theorem stripCoreF_fuel_eq : ∀ f1 : ℕ, ∀ f2 s, s.length ≤ f1 → s.length ≤ f2 →
    stripCoreF f1 s = stripCoreF f2 s := by
  intro f1
  induction f1 with
  | zero =>
    intro f2 s h1 _
    have hs : s = [] := List.length_eq_zero.mp (Nat.le_zero.mp h1)
    subst hs
    cases f2 with
    | zero => rfl
    | succ g =>
      rw [stripCoreF_succ]
      have hnone : findSub [] openTag = none := by decide
      rw [hnone]
      rfl
  | succ f ih =>
    intro f2 s h1 h2
    cases f2 with
    | zero =>
      have hs : s = [] := List.length_eq_zero.mp (Nat.le_zero.mp h2)
      subst hs
      rw [stripCoreF_succ]
      have hnone : findSub [] openTag = none := by decide
      rw [hnone]
      rfl
    | succ g =>
      rw [stripCoreF_succ, stripCoreF_succ]
      cases hf1 : findSub s openTag with
      | none => rfl
      | some i =>
        show (match findSub (s.drop (i + openTag.length)) closeTag with
          | none => s
          | some j =>
            s.take i ++
              stripCoreF f ((s.drop (i + openTag.length)).drop (j + closeTag.length))) =
          (match findSub (s.drop (i + openTag.length)) closeTag with
          | none => s
          | some j =>
            s.take i ++
              stripCoreF g ((s.drop (i + openTag.length)).drop (j + closeTag.length)))
        cases hf2 : findSub (s.drop (i + openTag.length)) closeTag with
        | none => rfl
        | some j =>
          show s.take i ++
              stripCoreF f ((s.drop (i + openTag.length)).drop (j + closeTag.length)) =
            s.take i ++
              stripCoreF g ((s.drop (i + openTag.length)).drop (j + closeTag.length))
          have ho : 0 < openTag.length := by decide
          have hbound := findSub_some_bound s openTag i hf1
          have hR : ((s.drop (i + openTag.length)).drop (j + closeTag.length)).length =
              s.length - (i + openTag.length) - (j + closeTag.length) := by
            rw [List.length_drop, List.length_drop]
          congr 1
          apply ih
          · omega
          · omega

theorem stripCoreF_block (fuel : ℕ) (t b rest : List Char)
    (ht : ¬ occursIn openTag t) (hb : ¬ occursIn closeTag b) :
    stripCoreF (fuel + 1) (t ++ (openTag ++ (b ++ (closeTag ++ rest)))) =
      t ++ stripCoreF fuel rest := by
  set S := t ++ (openTag ++ (b ++ (closeTag ++ rest))) with hS
  have hfind1 : findSub S openTag = some t.length := by
    apply findSub_first_of
    · rw [hS, List.drop_left]
      exact List.isPrefixOf_iff_prefix.mpr (List.prefix_append _ _)
    · intro j hj
      exact no_occ_left openTag t (b ++ (closeTag ++ rest)) borderFree_openTag ht j hj
  have hrest1 : S.drop (t.length + openTag.length) = b ++ (closeTag ++ rest) := by
    rw [hS, show t ++ (openTag ++ (b ++ (closeTag ++ rest))) =
      (t ++ openTag) ++ (b ++ (closeTag ++ rest)) by simp,
      show t.length + openTag.length = (t ++ openTag).length by simp]
    exact List.drop_left _ _
  have hfind2 : findSub (b ++ (closeTag ++ rest)) closeTag = some b.length := by
    apply findSub_first_of
    · rw [List.drop_left]
      exact List.isPrefixOf_iff_prefix.mpr (List.prefix_append _ _)
    · intro j hj
      exact no_occ_left closeTag b rest borderFree_closeTag hb j hj
  have hdrop2 : (b ++ (closeTag ++ rest)).drop (b.length + closeTag.length) = rest := by
    rw [show b ++ (closeTag ++ rest) = (b ++ closeTag) ++ rest by simp,
      show b.length + closeTag.length = (b ++ closeTag).length by simp]
    exact List.drop_left _ _
  have htake : S.take t.length = t := by rw [hS]; exact List.take_left _ _
  rw [stripCoreF_succ, hfind1]
  show (match findSub (S.drop (t.length + openTag.length)) closeTag with
    | none => S
    | some j =>
      S.take t.length ++
        stripCoreF fuel ((S.drop (t.length + openTag.length)).drop (j + closeTag.length))) =
    t ++ stripCoreF fuel rest
  rw [hrest1, hfind2]
  show S.take t.length ++
      stripCoreF fuel ((b ++ (closeTag ++ rest)).drop (b.length + closeTag.length)) =
    t ++ stripCoreF fuel rest
  rw [hdrop2, htake]

theorem stripCore_blocks (pairs : List (List Char × List Char)) : ∀ tail : List Char,
    (∀ p ∈ pairs, ¬ occursIn closeTag p.2) →
    ¬ occursIn openTag (textParts pairs tail) →
    stripCoreF (renderBlocks pairs tail).length (renderBlocks pairs tail) =
      textParts pairs tail := by
  induction pairs with
  | nil =>
    intro tail _ hto
    exact stripCoreF_no_open _ tail hto
  | cons p more ih =>
    intro tail hb hto
    obtain ⟨t, b⟩ := p
    have hbp : ¬ occursIn closeTag b := hb (t, b) (by simp)
    have hbmore : ∀ q ∈ more, ¬ occursIn closeTag q.2 := fun q hq => hb q (by simp [hq])
    have htfree : ¬ occursIn openTag t := fun ho =>
      hto (occursIn_mono ho ⟨[], textParts more tail, by simp [textParts]⟩)
    have htrest : ¬ occursIn openTag (textParts more tail) := fun ho =>
      hto (occursIn_mono ho ⟨t, [], by simp [textParts]⟩)
    have ho : 0 < openTag.length := by decide
    have hc : 0 < closeTag.length := by decide
    have hre : renderBlocks ((t, b) :: more) tail =
        t ++ (openTag ++ (b ++ (closeTag ++ renderBlocks more tail))) := rfl
    have hlen : (renderBlocks ((t, b) :: more) tail).length =
        t.length + (openTag.length + (b.length + (closeTag.length +
          (renderBlocks more tail).length))) := by
      rw [hre]; simp
    obtain ⟨F, hF⟩ : ∃ F, (renderBlocks ((t, b) :: more) tail).length = F + 1 :=
      ⟨(renderBlocks ((t, b) :: more) tail).length - 1, by omega⟩
    have hFrest : (renderBlocks more tail).length ≤ F := by omega
    rw [hF, hre, stripCoreF_block F t b (renderBlocks more tail) htfree hbp]
    rw [stripCoreF_fuel_eq F (renderBlocks more tail).length (renderBlocks more tail)
      hFrest (Nat.le_refl _)]
    rw [ih tail hbmore htrest]
    rfl

/-- C7 counterexample: on the input consisting of a single (unmatched) close
marker, `stripMemoryTags` finds no open/close span, returns the input
unchanged, and the result still contains the close delimiter token — refuting
the claim that the result contains no delimiter tokens for every input. -/
theorem stripMemoryTags_strayClose_cex :
    stripMemoryTags "</relevant-memories>" = "</relevant-memories>" ∧
    occursIn closeTag (stripMemoryTags "</relevant-memories>").data := by
  constructor
  · decide
  · rw [show stripMemoryTags "</relevant-memories>" = "</relevant-memories>" by decide]
    exact ⟨[], [], by simp [closeTag]⟩

/-- C7 (amended): `stripMemoryTags` removes, scanning left to right, every
span from an open marker to the next close marker, including multiple and
adjacent blocks: on any input made of free-text segments interleaved with
well-formed `<relevant-memories>…</relevant-memories>` blocks — with the
block bodies free of the close marker and the concatenated free text free of
both markers — the result is exactly the trimmed concatenation of the free
text and contains no delimiter tokens.  Unmatched markers (outside this
input class) pass through unchanged. -/
theorem stripMemoryTags_wellFormed (pairs : List (List Char × List Char)) (tail : List Char)
    (hb : ∀ p ∈ pairs, ¬ occursIn closeTag p.2)
    (hto : ¬ occursIn openTag (textParts pairs tail))
    (htc : ¬ occursIn closeTag (textParts pairs tail)) :
    stripMemoryTags ⟨renderBlocks pairs tail⟩ = ⟨trimChars (textParts pairs tail)⟩ ∧
    ¬ occursIn openTag (stripMemoryTags ⟨renderBlocks pairs tail⟩).data ∧
    ¬ occursIn closeTag (stripMemoryTags ⟨renderBlocks pairs tail⟩).data := by
  have hcore : stripCoreF (renderBlocks pairs tail).length (renderBlocks pairs tail) =
      textParts pairs tail := stripCore_blocks pairs tail hb hto
  have hmain : stripMemoryTags ⟨renderBlocks pairs tail⟩ =
      ⟨trimChars (textParts pairs tail)⟩ := by
    unfold stripMemoryTags
    rw [show (⟨renderBlocks pairs tail⟩ : String).data = renderBlocks pairs tail from rfl,
      hcore]
  refine ⟨hmain, ?_, ?_⟩
  · rw [hmain]
    intro hocc
    exact hto (occursIn_mono hocc (trimChars_within _))
  · rw [hmain]
    intro hocc
    exact htc (occursIn_mono hocc (trimChars_within _))

/-- C7 witness: one well-formed block between two free-text segments is
removed whole, and the result — the trimmed free text — contains no close
marker. -/
theorem stripMemoryTags_wellFormed_witness :
    stripMemoryTags ⟨renderBlocks [("Before ".data, "stuff".data)] "After".data⟩ =
      "Before After" ∧
    ¬ occursIn closeTag
      (stripMemoryTags ⟨renderBlocks [("Before ".data, "stuff".data)] "After".data⟩).data := by
  have h := stripMemoryTags_wellFormed [("Before ".data, "stuff".data)] "After".data
    (fun p hp => by
      rw [List.mem_singleton] at hp
      rw [hp]
      exact (not_occursIn_iff _ _).mpr (by decide))
    ((not_occursIn_iff _ _).mpr (by decide))
    ((not_occursIn_iff _ _).mpr (by decide))
  refine ⟨?_, h.2.2⟩
  rw [h.1]
  decide

end PineconeMemory
